import Mathlib

/-!
Shallow embedding of `scripts/barcode_fisher.py`.

Python strings are modelled as `List Char`, Python integers as `Int`,
Python floats as exact decimals (`Dec`): the bitscore column holds short
decimal literals, whose ordering agrees with the ordering of the doubles
Python parses them to.  Python dictionaries are modelled as association
lists in insertion order (assignment to an existing key keeps its
position, as CPython guarantees).  A function that can raise an exception
is modelled with `Option` (`none` models the raise).  Filesystem and
subprocess effects are modelled by explicit parameters carrying the data
the script would read.
-/

/-- Python strings are modelled as lists of characters. -/
abbrev PyStr := List Char

/-- ASCII whitespace recognised by Python `str.strip` and no-argument `str.split`. -/
def pySpace (c : Char) : Bool :=
  c == ' ' || c == '\t' || c == '\n' || c == '\r' || c == '\x0b' || c == '\x0c'

/-- Python `str.strip()`: remove leading and trailing whitespace. -/
def pyStrip (s : PyStr) : PyStr :=
  ((s.dropWhile pySpace).reverse.dropWhile pySpace).reverse

/-- Python `str.upper()` on the ASCII fragment used for nucleotide sequences. -/
def pyUpper (s : PyStr) : PyStr :=
  s.map Char.toUpper

/-- Split a list at every separator character, like Python `str.split(sep)`:
the empty string yields `[[]]`, and empty fields are kept. -/
def splitP (p : Char → Bool) : PyStr → List PyStr
  | [] => [[]]
  | c :: rest =>
    if p c then [] :: splitP p rest
    else
      match splitP p rest with
      | [] => [[c]]
      | t :: ts => (c :: t) :: ts

/-- Python no-argument `str.split()`: split on whitespace runs, dropping empty fields. -/
def pySplitWs (s : PyStr) : List PyStr :=
  (splitP pySpace s).filter (· ≠ [])

/-- Digit-string value; `none` unless the string is nonempty and all ASCII digits. -/
def digitsVal? (ds : PyStr) : Option Nat :=
  if ds ≠ [] ∧ ds.all Char.isDigit then
    some (ds.foldl (fun a c => a * 10 + (c.toNat - 48)) 0)
  else none

/-- Value of a possibly-empty digit string (used for the part after a decimal point). -/
def digitsVal (ds : PyStr) : Nat :=
  ds.foldl (fun a c => a * 10 + (c.toNat - 48)) 0

/-- Python `int(str)` on the decimal fragment: optional surrounding whitespace,
optional sign, then decimal digits (underscore separators and non-ASCII digits
accepted by CPython are outside the modelled fragment). -/
def parsePyInt (t : PyStr) : Option Int :=
  match pyStrip t with
  | '+' :: ds => (digitsVal? ds).map Int.ofNat
  | '-' :: ds => (digitsVal? ds).map fun n => -(n : Int)
  | ds => (digitsVal? ds).map Int.ofNat

/-- Exact value of a power of ten with integer exponent. -/
def pow10 (e : Int) : Rat :=
  if 0 ≤ e then ((10 ^ e.toNat : Nat) : Rat)
  else (1 : Rat) / ((10 ^ (-e).toNat : Nat) : Rat)

/-- Split a mantissa from an exponent part at the first `e`/`E`, if any. -/
def splitExp : PyStr → PyStr × Option PyStr
  | [] => ([], none)
  | c :: rest =>
    if c == 'e' || c == 'E' then ([], some rest)
    else
      let mx := splitExp rest
      (c :: mx.1, mx.2)

/-- Exponent of a float literal: optional sign, then decimal digits. -/
def parseExpInt (t : PyStr) : Option Int :=
  match t with
  | '+' :: ds => (digitsVal? ds).map Int.ofNat
  | '-' :: ds => (digitsVal? ds).map fun n => -(n : Int)
  | ds => (digitsVal? ds).map Int.ofNat

/-- Exact decimal number `mant * 10 ^ exp`, the value of a finite Python
float literal.  Comparisons go through integer arithmetic so that concrete
runs of the selector evaluate inside the kernel. -/
structure Dec where
  mant : Int
  exp : Int
  deriving DecidableEq

/-- Rational value of a decimal (used only in proofs). -/
def Dec.toRat (d : Dec) : Rat :=
  (d.mant : Rat) * pow10 d.exp

/-- Value comparison of two decimals: rescale both to the smaller exponent
and compare the integer mantissas. -/
def decLt (a b : Dec) : Bool :=
  let e := min a.exp b.exp
  decide (a.mant * (10 : Int) ^ (a.exp - e).toNat < b.mant * (10 : Int) ^ (b.exp - e).toNat)

/-- Python `float(str)` on finite decimal literals, valued exactly as a
decimal: optional surrounding whitespace and sign, digits with an optional
decimal point (at least one digit in the mantissa), optional `e`/`E`
exponent.  The `inf`/`nan` spellings and underscore separators are outside
the modelled fragment, and the rounding of a literal to a binary double is
not modelled (it is order-preserving on distinct short literals). -/
def parsePyDec (t : PyStr) : Option Dec :=
  let s := pyStrip t
  let sgs : Int × PyStr :=
    match s with
    | '+' :: r => (1, r)
    | '-' :: r => (-1, r)
    | r => (1, r)
  let mx := splitExp sgs.2
  let mant? : Option (Nat × Nat) :=
    match splitP (fun c => c == '.') mx.1 with
    | [ip] => (digitsVal? ip).map fun n => (n, 0)
    | [ip, fp] =>
      if ip = [] ∧ fp = [] then none
      else if ip.all Char.isDigit ∧ fp.all Char.isDigit then
        some (digitsVal (ip ++ fp), fp.length)
      else none
    | _ => none
  mant?.bind fun mf =>
    match mx.2 with
    | none => some ⟨sgs.1 * mf.1, -(mf.2 : Int)⟩
    | some ex => (parseExpInt ex).map fun e => ⟨sgs.1 * mf.1, e - (mf.2 : Int)⟩

/-- One parsed BLAST outfmt-6 row, as `pick_best_hit` consumes it. -/
structure Hit where
  bit : Dec
  contig : PyStr
  sstart : Int
  send : Int
  deriving DecidableEq

/-- Body of the `pick_best_hit` loop for one line of the tabular file:
skip blank lines, split the stripped line on tabs, require at least 8
fields, and parse bitscore (field 5), sstart (field 6) and send (field 7);
any parse failure skips the line. -/
def parseLine (line : PyStr) : Option Hit :=
  let st := pyStrip line
  if st = [] then none
  else
    let toks := splitP (fun c => c == '\t') st
    if toks.length < 8 then none
    else
      match parsePyDec (toks.getD 5 []), parsePyInt (toks.getD 6 []), parsePyInt (toks.getD 7 []) with
      | some b, some s, some e => some ⟨b, toks.getD 1 [], s, e⟩
      | _, _, _ => none

/-- Update of the running best by one parsed hit, from the script's
`if best is None or bitscore > best[0]`: a later hit replaces the best only
when its bitscore is strictly larger. -/
def bestStep (best : Option Hit) (h : Hit) : Option Hit :=
  match best with
  | none => some h
  | some b => if decLt b.bit h.bit then some h else some b

/-- `pick_best_hit` from the script: fold over the file's lines keeping the
hit with the strictly largest bitscore (so the first line wins ties), and
return its `(contig, sstart, send)`; `none` models the `ValueError("no hits")`. -/
def pick_best_hit (lines : List PyStr) : Option (PyStr × Int × Int) :=
  let best := lines.foldl
    (fun best line =>
      match parseLine line with
      | none => best
      | some h => bestStep best h)
    (none : Option Hit)
  best.map fun h => (h.contig, h.sstart, h.send)

/-- Stated from the spec: the first hit in file order whose bitscore is maximal
(a later hit replaces an earlier one only when strictly larger). -/
def firstMaxHit : List Hit → Option Hit
  | [] => none
  | h :: hs =>
    match firstMaxHit hs with
    | none => some h
    | some b => if decLt h.bit b.bit then some b else some h

/-- Combination of a running best with the best of the remaining lines;
the remaining side wins only when strictly larger. -/
def mergeBest : Option Hit → Option Hit → Option Hit
  | none, r => r
  | some b, none => some b
  | some b, some h => if decLt b.bit h.bit then some h else some b

/-- Python slicing `s[i:j]` with integer bounds: negative bounds count from
the end, then both are clamped to `[0, len]`. -/
def pySlice (s : List Char) (i j : Int) : List Char :=
  let n : Int := s.length
  let i' : Int := if i < 0 then max 0 (n + i) else min n i
  let j' : Int := if j < 0 then max 0 (n + j) else min n j
  (s.drop i'.toNat).take (j'.toNat - i'.toNat)

/-- `slice_with_flank` from the script: swap the 1-based inclusive BLAST
coordinates into order, widen by the flank on both sides, and slice. -/
def slice_with_flank (seq : List Char) (sstart send flank : Int) : List Char :=
  let se : Int × Int := if sstart > send then (send, sstart) else (sstart, send)
  let left : Int := max 0 (se.1 - 1 - flank)
  let right : Int := min (seq.length : Int) (se.2 + flank)
  pySlice seq left right

/-- Stated from the spec: after normalising so start ≤ end, the substring
from `max 0 (start − 1 − flank)` up to but excluding `min (length) (end + flank)`. -/
def specWindow (seq : List Char) (sstart send flank : Int) : List Char :=
  let s := min sstart send
  let e := max sstart send
  let left := max 0 (s - 1 - flank)
  let right := min (seq.length : Int) (e + flank)
  (seq.drop left.toNat).take (right.toNat - left.toNat)

/-- Association-list lookup (first entry with the key), modelling `dict` access. -/
def lookupA {α β : Type} [DecidableEq α] : List (α × β) → α → Option β
  | [], _ => none
  | kv :: rest, k => if kv.1 = k then some kv.2 else lookupA rest k

/-- Python `dict` assignment `d[k] = v`: replace in place when the key is
present (keeping its position), otherwise append at the end. -/
def setKey {α β : Type} [DecidableEq α] : List (α × β) → α → β → List (α × β)
  | [], k, v => [(k, v)]
  | kv :: rest, k, v => if kv.1 = k then (k, v) :: rest else kv :: setKey rest k v

/-- Update the value at a key in place when present; an absent key is left
unchanged (in the script this situation would be a `KeyError`, but every
call site updates a key it has already inserted). -/
def updateKey {α β : Type} [DecidableEq α] (f : β → β) : List (α × β) → α → List (α × β)
  | [], _ => []
  | kv :: rest, k => if kv.1 = k then (k, f kv.2) :: rest else kv :: updateKey f rest k

/-- One step of first-occurrence deduplication over a `(kept, seen)` pair,
as the script's `seen` set plus `genomes` list maintain it. -/
def dedupStep {α : Type} [DecidableEq α] (st : List α × List α) (x : α) : List α × List α :=
  if x ∈ st.2 then st else (st.1 ++ [x], x :: st.2)

/-- Stated from the spec: keep the first occurrence of every element, in order. -/
def firstOccur {α : Type} [DecidableEq α] (l : List α) : List α :=
  (l.foldl dedupStep ([], [])).1

/-- Identifier of a FASTA header line: first whitespace-delimited token of the
stripped line, with the leading `>` removed (`line.strip().split()[0][1:]`). -/
def headerId (line : PyStr) : PyStr :=
  ((pySplitWs (pyStrip line)).headD []).drop 1

/-- Loop of `read_genome_to_dict` over the file's lines, carrying the current
contig id, the id-to-chunk-list dictionary, and the duplicate-id warnings
printed to standard error (modelled by the list of duplicated ids). -/
def rgLoop : List PyStr → Option PyStr → List (PyStr × List PyStr) → List PyStr →
    List (PyStr × List PyStr) × List PyStr
  | [], _, seqs, warns => (seqs, warns)
  | line :: rest, current, seqs, warns =>
    if line = [] then rgLoop rest current seqs warns
    else if line.head? = some '>' then
      let id := headerId line
      let warns' := if (lookupA seqs id).isSome then warns ++ [id] else warns
      rgLoop rest (some id) (setKey seqs id []) warns'
    else
      match current with
      | none => rgLoop rest current seqs warns
      | some c => rgLoop rest current (updateKey (fun v => v ++ [pyStrip line]) seqs c) warns

/-- `read_genome_to_dict` from the script: parse FASTA lines into an ordered
id-to-sequence dictionary (joining the stripped sequence chunks), together
with the duplicate-id warnings. -/
def read_genome_to_dict (lines : List PyStr) : List (PyStr × PyStr) × List PyStr :=
  let r := rgLoop lines none [] []
  (r.1.map fun kv => (kv.1, kv.2.flatten), r.2)

/-- Chunks contributed to the current record by the lines before the next
header: skip empty lines, stop at a header, otherwise strip the line. -/
def leadChunks : List PyStr → List PyStr
  | [] => []
  | l :: rest =>
    if l = [] then leadChunks rest
    else if l.head? = some '>' then []
    else pyStrip l :: leadChunks rest

/-- All FASTA records of a file in order, one entry per header line
(duplicate ids kept), with chunk lists as values. -/
def fastaBlocksChunks : List PyStr → List (PyStr × List PyStr)
  | [] => []
  | l :: rest =>
    if l ≠ [] ∧ l.head? = some '>' then
      (headerId l, leadChunks rest) :: fastaBlocksChunks rest
    else fastaBlocksChunks rest

/-- Stated from the spec: the records of a FASTA text in file order, one per
header line, keyed by the header's first token without `>`. -/
def fastaBlocks (lines : List PyStr) : List (PyStr × PyStr) :=
  (fastaBlocksChunks lines).map fun kv => (kv.1, kv.2.flatten)

/-- Duplicate occurrences of a stream of ids against an initial seen set:
each id already seen produces one warning. -/
def dupsAgainst {α : Type} [DecidableEq α] : List α → List α → List α
  | _, [] => []
  | seen, x :: rest =>
    if x ∈ seen then x :: dupsAgainst seen rest
    else dupsAgainst (x :: seen) rest

/-- Genome basename, modelling `Path(p).name` on a resolved file path. -/
def baseName (p : PyStr) : PyStr :=
  (splitP (fun c => c == '/') p).getLastD []

/-- Suffix-stripping loop of `extract_barcodes`: drop the first matching
extension from the candidate list, or keep the name unchanged. -/
def stripExtFrom : List PyStr → PyStr → PyStr
  | [], n => n
  | e :: es, n =>
    if e.isSuffixOf n then n.take (n.length - e.length)
    else stripExtFrom es n

/-- Known FASTA extensions in the order the script tries them. -/
def fastaExts : List PyStr :=
  [".fasta".data, ".fa".data, ".fna".data, ".fa.gz".data, ".fna.gz".data, ".fasta.gz".data]

/-- Genome output name: basename with the first matching FASTA extension dropped. -/
def stripExt (n : PyStr) : PyStr :=
  stripExtFrom fastaExts n

/-- One iteration of the `extract_barcodes` loop over a `(label, gbase)` pair
and its tabular hit lines: take the best hit, find the genome by basename,
read it, look the contig up, slice with flank, and store the fragment under
the label and the extension-stripped genome name.  Soft failures (no hits,
unknown basename, unknown contig) leave the result unchanged. -/
def extractStep (genomes : List (PyStr × List PyStr)) (flank : Int)
    (result : List (PyStr × List (PyStr × PyStr)))
    (entry : (PyStr × PyStr) × List PyStr) : List (PyStr × List (PyStr × PyStr)) :=
  match pick_best_hit entry.2 with
  | none => result
  | some hit =>
    match genomes.find? (fun g => g.1 = entry.1.2) with
    | none => result
    | some g =>
      match lookupA (read_genome_to_dict g.2).1 hit.1 with
      | none => result
      | some seq =>
        let fragment := slice_with_flank seq hit.2.1 hit.2.2 flank
        updateKey (fun items => setKey items (stripExt entry.1.2) fragment) result entry.1.1

/-- `extract_barcodes` from the script: start from `{label: {} for label in
labels}` and fold the step over the BLAST map in insertion order.  Genomes
carry their FASTA lines in place of the file the script would read (the
script's per-basename cache of `read_genome_to_dict` has no observable
effect on the result). -/
def extract_barcodes (labels : List PyStr) (genomes : List (PyStr × List PyStr))
    (blast_map : List ((PyStr × PyStr) × List PyStr)) (flank : Int) :
    List (PyStr × List (PyStr × PyStr)) :=
  blast_map.foldl (extractStep genomes flank) ((firstOccur labels).map fun lb => (lb, []))

/-- Output file name `{pfx_}{label}.fasta`; an empty pfx adds no underscore. -/
def outName (pfx label : PyStr) : PyStr :=
  (if pfx ≠ [] then pfx ++ "_".data else []) ++ label ++ ".fasta".data

/-- Body of one output FASTA file: one record per non-empty fragment, in
dictionary order, sequence upper-cased. -/
def outBody (items : List (PyStr × PyStr)) : PyStr :=
  items.foldl
    (fun acc it => if it.2 = [] then acc else acc ++ '>' :: it.1 ++ '\n' :: pyUpper it.2 ++ ['\n'])
    []

/-- `write_outputs` from the script, as the list of `(file name, file body)`
pairs it writes, one per label in dictionary order. -/
def write_outputs (barcode_dict : List (PyStr × List (PyStr × PyStr))) (pfx : PyStr) :
    List (PyStr × PyStr) :=
  barcode_dict.map fun kv => (outName pfx kv.1, outBody kv.2)

/-- Path of the per-pair BLAST output file `{tmpdir}/temp_blastn/{label}_{gbase}.blastn.tsv`. -/
def blastOutPath (tmpdir label gbase : PyStr) : PyStr :=
  tmpdir ++ "/temp_blastn/".data ++ label ++ "_".data ++ gbase ++ ".blastn.tsv".data

/-- `run_blastn` from the script, reduced to its observable result map: for
every label and genome (in order) assign the pair's output path under the
key `(label, genome basename)`.  The blastn subprocess itself is an external
tool whose output fills the file and is out of scope. -/
def run_blastn (label2rep : List (PyStr × PyStr)) (genomes : List PyStr) (tmpdir : PyStr) :
    List ((PyStr × PyStr) × PyStr) :=
  label2rep.foldl
    (fun results lp =>
      genomes.foldl
        (fun results g =>
          setKey results (lp.1, baseName g) (blastOutPath tmpdir lp.1 (baseName g)))
        results)
    []

/-- Option-valued fold, modelling a loop that can exit the program (`none`). -/
def foldO {σ α : Type} (f : σ → α → Option σ) : σ → List α → Option σ
  | st, [] => some st
  | st, a :: l => (f st a).bind fun st' => foldO f st' l

/-- Option-valued map, modelling per-element processing that can exit. -/
def mapO {α β : Type} (f : α → Option β) : List α → Option (List β)
  | [] => some []
  | a :: l => (f a).bind fun b => (mapO f l).map fun bs => b :: bs

/-- Python `str.strip()` on a path string. -/
def pyStripS (s : String) : String :=
  String.mk (pyStrip s.data)

/-- Filesystem observations made by `normalize_genome_list`, abstracted:
`resolve` models `Path(x).expanduser().resolve()`, `fexists` and `isFile`
the existence and file tests, `suffixOf` the `Path.suffix` of a resolved
path, `firstChar` the first decoded character of the file (`none` models a
read that raises), and `flines` the lines of a list file. -/
structure FS where
  resolve : String → String
  fexists : String → Bool
  isFile : String → Bool
  suffixOf : String → String
  firstChar : String → Option Char
  flines : String → List String

/-- List-file classification heuristic of `normalize_genome_list`: a `.txt`
or `.list` file, or a file without a recognised FASTA suffix, or a readable
path whose first character is not `>`; an unreadable path is not a list. -/
def isListFile (fs : FS) (p : String) : Bool :=
  if fs.isFile p ∧ (fs.suffixOf p).toLower ∈ [".txt", ".list"] then true
  else if fs.isFile p ∧ ¬ (fs.suffixOf p).toLower ∈ [".fa", ".fna", ".fasta", ".gz"] then true
  else
    match fs.firstChar p with
    | some ch => ch ≠ '>'
    | none => false

/-- One line of a genome list file: resolve the stripped line, exit when it
does not exist, otherwise deduplicate it into the state. -/
def normLine (fs : FS) (st : List String × List String) (line : String) :
    Option (List String × List String) :=
  let p2 := fs.resolve (pyStripS line)
  if fs.fexists p2 then some (dedupStep st p2) else none

/-- One `--genome` argument: resolve it, exit when missing, then either walk
its lines (list file) or deduplicate the path itself into the state. -/
def normItem (fs : FS) (st : List String × List String) (item : String) :
    Option (List String × List String) :=
  let p := fs.resolve item
  if ¬ fs.fexists p then none
  else if isListFile fs p then foldO (normLine fs) st (fs.flines p)
  else some (dedupStep st p)

/-- `normalize_genome_list` from the script: fold the arguments through the
`(genomes, seen)` state and fail when the final list is empty; `none`
models `sys.exit(1)`. -/
def normalize_genome_list (fs : FS) (g_args : List String) : Option (List String) :=
  (foldO (normItem fs) ([], []) g_args).bind fun st =>
    if st.1.isEmpty then none else some st.1

/-- Stated from the spec: the resolved paths one `--genome` argument stands
for, in order — the path itself, or every resolved line of a list file —
with `none` when any referenced path is missing. -/
def expandItem (fs : FS) (item : String) : Option (List String) :=
  let p := fs.resolve item
  if ¬ fs.fexists p then none
  else if isListFile fs p then
    mapO (fun line =>
      let p2 := fs.resolve (pyStripS line)
      if fs.fexists p2 then some p2 else none) (fs.flines p)
  else some [p]

/-- Stated from the spec: the full stream of resolved paths across all
arguments, in encounter order and with multiplicity. -/
def resolvedOccurrences (fs : FS) (g_args : List String) : Option (List String) :=
  (mapO (expandItem fs) g_args).map List.flatten

/-- Concrete 320-base contig used by the end-to-end theorem. -/
def chr1seq : PyStr :=
  List.replicate 100 'a' ++ List.replicate 120 'c' ++ List.replicate 100 'g'

/-- FASTA lines of the single-contig genome used by the end-to-end theorem. -/
def genomeLines : List PyStr :=
  ['>' :: "chr1 assembled contig".data,
   List.replicate 100 'a', List.replicate 120 'c', List.replicate 100 'g']

/-- A losing hit row with bitscore 100. -/
def hitRow1 : PyStr := "ITS_1\tchr1\t95.0\t150\t1e-20\t100\t1\t150".data

/-- The best hit row of the end-to-end theorem: bitscore 400, subject 101..300. -/
def hitRow2 : PyStr := "ITS_1\tchr1\t99.0\t200\t1e-50\t400\t101\t300".data

/-- Ten-character sequence used by concrete counterexamples. -/
def exSeq10 : PyStr := "abcdefghij".data

/-- Concrete filesystem for evaluating the normalizer: every path exists,
nothing is classified as a file, and every read yields `>`. -/
def fsW : FS where
  resolve := fun s => s
  fexists := fun _ => true
  isFile := fun _ => false
  suffixOf := fun _ => ""
  firstChar := fun _ => some '>'
  flines := fun _ => []

theorem dropTake_part {α : Type} (l : List α) (i k : Nat) : (l.drop i).take k <:+: l := by
  refine ⟨l.take i, (l.drop i).drop k, ?_⟩
  rw [List.append_assoc, List.take_append_drop, List.take_append_drop]

theorem slice_part (seq : List Char) (a b f : Int) : slice_with_flank seq a b f <:+: seq := by
  simp only [slice_with_flank, pySlice]
  exact dropTake_part seq _ _

theorem slice_length_le (seq : List Char) (a b f : Int) :
    (slice_with_flank seq a b f).length ≤ seq.length := by
  obtain ⟨u, v, huv⟩ := slice_part seq a b f
  have h := congrArg List.length huv
  simp only [List.length_append] at h
  omega

theorem slice_eq_specWindow (seq : List Char) (s e f : Int)
    (_hs : 1 ≤ s) (he : 1 ≤ e) (hf : 0 ≤ f) :
    slice_with_flank seq s e f = specWindow seq s e f := by
  have hn : (0 : Int) ≤ (seq.length : Int) := Int.natCast_nonneg _
  simp only [slice_with_flank, specWindow, pySlice]
  have hpair : (if s > e then (e, s) else (s, e)) = (min s e, max s e) := by
    split_ifs with h <;> simp only [Prod.mk.injEq] <;> constructor <;> omega
  rw [hpair]
  set L : Int := max 0 (min s e - 1 - f) with hL
  set R : Int := min (seq.length : Int) (max s e + f) with hR
  have hL0 : 0 ≤ L := by omega
  have hR0 : 0 ≤ R := by omega
  have hRn : R ≤ (seq.length : Int) := by omega
  rw [if_neg (by omega), if_neg (by omega), min_eq_right hRn]
  rcases le_or_lt L (seq.length : Int) with hLn | hLn
  · rw [min_eq_right hLn]
  · rw [min_eq_left (le_of_lt hLn)]
    rw [List.drop_eq_nil_of_le (by omega), List.drop_eq_nil_of_le (by omega)]
    simp

/-- C2: for 1-based coordinates in either order and a non-negative flank, the
window extractor returns exactly the substring from `max 0 (start − 1 − flank)`
to `min (length) (end + flank)` of the (never reverse-complemented) sequence;
on a length-20 sequence, `slice_with_flank seq 1 5 100` is the whole sequence. -/
theorem C2_window_bounds :
    (∀ (seq : List Char) (s e f : Int), 1 ≤ s → 1 ≤ e → 0 ≤ f →
      slice_with_flank seq s e f = specWindow seq s e f)
    ∧ (∀ seq : List Char, seq.length = 20 → slice_with_flank seq 1 5 100 = seq) := by
  constructor
  · exact fun seq s e f hs he hf => slice_eq_specWindow seq s e f hs he hf
  · intro seq h
    rw [slice_eq_specWindow seq 1 5 100 (by omega) (by omega) (by omega)]
    simp only [specWindow, h]
    norm_num
    omega

/-- Witness for C2 at a concrete length-20 sequence with coordinates 1 and 5
and flank 100. -/
theorem C2_window_bounds_witness :
    slice_with_flank "abcdefghijklmnopqrst".data 1 5 100 = "abcdefghijklmnopqrst".data :=
  C2_window_bounds.2 "abcdefghijklmnopqrst".data (by decide)

/-- C3: the window extractor is symmetric under swapping its two coordinates. -/
theorem C3_swap_symmetric : ∀ (seq : List Char) (a b f : Int),
    slice_with_flank seq a b f = slice_with_flank seq b a f := by
  intro seq a b f
  simp only [slice_with_flank]
  have hpair : (if a > b then (b, a) else (a, b)) = (if b > a then (a, b) else (b, a)) := by
    split_ifs <;> simp only [Prod.mk.injEq] <;> constructor <;> omega
  rw [hpair]

/-- C10 (amended): the extractor's result is always a contiguous part of the
input, so its length never exceeds the input's; and for 1-based coordinates
(start ≥ 1 and end ≥ 1) it is monotone in the flank: for 0 ≤ f ≤ f' the
window for f is a contiguous part of the window for f'. -/
theorem C10_part_and_mono : ∀ (seq : List Char) (s e f f' : Int),
    (slice_with_flank seq s e f <:+: seq)
    ∧ ((slice_with_flank seq s e f).length ≤ seq.length)
    ∧ (1 ≤ s → 1 ≤ e → 0 ≤ f → f ≤ f' →
        slice_with_flank seq s e f <:+: slice_with_flank seq s e f') := by
  intro seq s e f f'
  refine ⟨slice_part seq s e f, slice_length_le seq s e f, ?_⟩
  intro hs he hf hff
  rw [slice_eq_specWindow seq s e f hs he hf,
      slice_eq_specWindow seq s e f' hs he (le_trans hf hff)]
  simp only [specWindow]
  set a : Nat := (max 0 (min s e - 1 - f)).toNat with ha
  set b : Nat := (min (seq.length : Int) (max s e + f)).toNat with hb
  set a' : Nat := (max 0 (min s e - 1 - f')).toNat with ha'
  set b' : Nat := (min (seq.length : Int) (max s e + f')).toNat with hb'
  have haa : a' ≤ a := by omega
  have hbb : b ≤ b' := by omega
  have h1 : ((seq.drop a').take (b' - a')).drop (a - a')
      = (seq.drop a).take ((b' - a') - (a - a')) := by
    rw [List.drop_take, List.drop_drop]
    have e1 : a' + (a - a') = a := by omega
    rw [e1]
  have h : (seq.drop a).take (b - a)
      = (((seq.drop a').take (b' - a')).drop (a - a')).take (b - a) := by
    rw [h1, List.take_take]
    have e2 : (b - a) ⊓ ((b' - a') - (a - a')) = b - a := by omega
    rw [e2]
  rw [h]
  exact dropTake_part _ _ _

/-- Counterexample to C10 as stated: with negative coordinates Python's
negative slice bound wraps around, so the window for the larger flank can be
empty while the window for the smaller flank is not. -/
theorem C10_counterexample :
    ¬ (slice_with_flank exSeq10 (-5) (-1) 0 <:+: slice_with_flank exSeq10 (-5) (-1) 1) := by
  intro h
  obtain ⟨u, v, huv⟩ := h
  have hlen := congrArg List.length huv
  simp only [List.length_append] at hlen
  have h1 : (slice_with_flank exSeq10 (-5) (-1) 0).length = 9 := by decide
  have h2 : (slice_with_flank exSeq10 (-5) (-1) 1).length = 0 := by decide
  omega

/-- Witness for C10's amended monotonicity at concrete coordinates 3 and 7
with flanks 1 ≤ 4. -/
theorem C10_part_and_mono_witness :
    slice_with_flank exSeq10 3 7 1 <:+: slice_with_flank exSeq10 3 7 4 :=
  (C10_part_and_mono exSeq10 3 7 1 4).2.2 (by decide) (by decide) (by decide) (by decide)

theorem pow10_eq_zpow (e : Int) : pow10 e = (10 : Rat) ^ e := by
  unfold pow10
  split_ifs with h
  · conv_rhs => rw [show e = ((e.toNat : Nat) : Int) from by omega]
    rw [zpow_natCast]
    push_cast
    rfl
  · conv_rhs => rw [show e = -(((-e).toNat : Nat) : Int) from by omega]
    rw [zpow_neg, zpow_natCast, one_div]
    push_cast
    rfl

theorem pow10_pos (e : Int) : 0 < pow10 e := by
  rw [pow10_eq_zpow]
  exact zpow_pos (by norm_num) e

theorem decLt_iff (a b : Dec) : decLt a b = true ↔ a.toRat < b.toRat := by
  have h10 : (10 : Rat) ≠ 0 := by norm_num
  unfold decLt
  rw [decide_eq_true_iff]
  have key : ∀ d : Dec, 0 ≤ d.exp - min a.exp b.exp →
      ((d.mant * 10 ^ (d.exp - min a.exp b.exp).toNat : Int) : Rat)
        = d.toRat * (10 : Rat) ^ (-(min a.exp b.exp)) := by
    intro d hd
    rw [Dec.toRat, pow10_eq_zpow]
    push_cast
    rw [mul_assoc, ← zpow_add₀ h10]
    rw [show d.exp + -(min a.exp b.exp) = (((d.exp - min a.exp b.exp).toNat : Nat) : Int) from by omega]
    rw [zpow_natCast]
  constructor
  · intro hlt
    have h2 : ((a.mant * 10 ^ (a.exp - min a.exp b.exp).toNat : Int) : Rat)
        < ((b.mant * 10 ^ (b.exp - min a.exp b.exp).toNat : Int) : Rat) := by
      exact_mod_cast hlt
    rw [key a (by omega), key b (by omega)] at h2
    exact lt_of_mul_lt_mul_right h2 (le_of_lt (zpow_pos (by norm_num) _))
  · intro hlt
    have h2 := (mul_lt_mul_right (zpow_pos (by norm_num : (0 : Rat) < 10) (-(min a.exp b.exp)))).mpr hlt
    rw [← key a (by omega), ← key b (by omega)] at h2
    exact_mod_cast h2

theorem decLt_eq_false_iff (a b : Dec) : decLt a b = false ↔ b.toRat ≤ a.toRat := by
  rw [← not_lt, ← decLt_iff]
  cases decLt a b <;> simp

theorem bestFold_filterMap (lines : List PyStr) (acc : Option Hit) :
    lines.foldl
      (fun best line =>
        match parseLine line with
        | none => best
        | some h => bestStep best h) acc
    = (lines.filterMap parseLine).foldl bestStep acc := by
  induction lines generalizing acc with
  | nil => rfl
  | cons l ls ih =>
    simp only [List.foldl_cons, List.filterMap_cons]
    cases hp : parseLine l with
    | none => simp only [ih]
    | some h => simp only [ih, List.foldl_cons]

theorem foldBest_eq_merge (hs : List Hit) :
    ∀ acc : Option Hit, hs.foldl bestStep acc = mergeBest acc (firstMaxHit hs) := by
  induction hs with
  | nil => intro acc; cases acc <;> rfl
  | cons h t ih =>
    intro acc
    simp only [List.foldl_cons, firstMaxHit, ih]
    cases hm : firstMaxHit t with
    | none =>
      cases acc with
      | none => rfl
      | some b => simp only [bestStep, mergeBest]; split_ifs <;> rfl
    | some m =>
      cases acc with
      | none =>
        simp only [bestStep, mergeBest]
      | some b =>
        simp only [bestStep, mergeBest]
        split_ifs <;> first
          | rfl
          | (simp only [mergeBest]; split_ifs <;> first
              | rfl
              | (exfalso
                 simp only [decLt_iff, Bool.not_eq_true, decLt_eq_false_iff] at *
                 linarith))

theorem firstMaxHit_eq_none_iff (hs : List Hit) : firstMaxHit hs = none ↔ hs = [] := by
  cases hs with
  | nil => simp [firstMaxHit]
  | cons a t =>
    cases hm : firstMaxHit t with
    | none => simp [firstMaxHit, hm]
    | some m =>
      simp only [firstMaxHit, hm]
      split_ifs <;> simp

theorem firstMaxHit_maximal (hs : List Hit) (h : Hit) (hh : firstMaxHit hs = some h) :
    h ∈ hs ∧ ∀ h' ∈ hs, h'.bit.toRat ≤ h.bit.toRat := by
  induction hs generalizing h with
  | nil => simp [firstMaxHit] at hh
  | cons a t ih =>
    cases hm : firstMaxHit t with
    | none =>
      simp only [firstMaxHit, hm, Option.some.injEq] at hh
      subst hh
      have ht : t = [] := (firstMaxHit_eq_none_iff t).mp hm
      subst ht
      simp
    | some m =>
      simp only [firstMaxHit, hm] at hh
      obtain ⟨hmem, hmax⟩ := ih m hm
      split_ifs at hh with hgt
      · injection hh with hh2
        subst hh2
        refine ⟨List.mem_cons_of_mem a hmem, ?_⟩
        intro h' hm'
        rcases List.mem_cons.mp hm' with rfl | m'
        · simp only [decLt_iff] at hgt
          linarith
        · exact hmax h' m'
      · injection hh with hh2
        subst hh2
        refine ⟨List.mem_cons_self a t, ?_⟩
        intro h' hm'
        rcases List.mem_cons.mp hm' with rfl | m'
        · exact le_refl _
        · refine le_trans (hmax h' m') ?_
          simp only [Bool.not_eq_true, decLt_eq_false_iff] at hgt
          linarith

/-- C1: the best-hit selector considers exactly the well-formed lines (those
`parseLine` accepts: at least 8 tab-separated fields with numeric bitscore,
sstart and send), silently skipping all others, and returns the
`(contig, sstart, send)` of the first line in file order whose bitscore is
maximal among the well-formed lines. -/
theorem C1_best_hit_selector : ∀ lines : List PyStr,
    pick_best_hit lines
      = (firstMaxHit (lines.filterMap parseLine)).map fun h => (h.contig, h.sstart, h.send) := by
  intro lines
  simp only [pick_best_hit]
  rw [bestFold_filterMap, foldBest_eq_merge]
  rfl

/-- C4: a hit file whose lines are all ill-formed (in particular an empty
file) makes the selector signal the explicit no-hits condition (`none`, the
`ValueError("no hits")`), and `extract_barcodes` treats that pair as a valid
non-fatal outcome: the pair contributes nothing and the fold over the
remaining pairs is unchanged. -/
theorem C4_no_hits_soft : ∀ lines : List PyStr, (∀ l ∈ lines, parseLine l = none) →
    pick_best_hit lines = none
    ∧ ∀ (labels : List PyStr) (genomes : List (PyStr × List PyStr))
        (pre post : List ((PyStr × PyStr) × List PyStr)) (flank : Int) (lb gb : PyStr),
        extract_barcodes labels genomes (pre ++ ((lb, gb), lines) :: post) flank
          = extract_barcodes labels genomes (pre ++ post) flank := by
  intro lines hall
  have hnone : pick_best_hit lines = none := by
    simp only [pick_best_hit]
    rw [bestFold_filterMap, List.filterMap_eq_nil_iff.mpr hall]
    rfl
  refine ⟨hnone, ?_⟩
  intro labels genomes pre post flank lb gb
  simp only [extract_barcodes]
  rw [List.foldl_append, List.foldl_append, List.foldl_cons]
  congr 1
  simp only [extractStep, hnone]

/-- Witness for C4 on a one-line file holding a single malformed line. -/
theorem C4_no_hits_soft_witness :
    pick_best_hit ["garbage".data] = none
    ∧ extract_barcodes ["ITS".data] [] [(("ITS".data, "g.fa".data), ["garbage".data])] 7
        = extract_barcodes ["ITS".data] [] [] 7 := by
  have h := C4_no_hits_soft ["garbage".data] (by decide)
  exact ⟨h.1, h.2 ["ITS".data] [] [] [] 7 "ITS".data "g.fa".data⟩

set_option maxRecDepth 100000 in
/-- C5: end to end, with label `ITS`, a single genome `genomeA.fa` whose only
contig `chr1` is `chr1seq`, a hit file whose best row is
`ITS_1 chr1 99.0 200 1e-50 400 101 300`, and flank 10, the writer produces
exactly the file `ITS.fasta` (no underscore since the prefix argument is
empty) holding one record named `genomeA` (extension stripped) whose
sequence is `chr1seq[90:310]` upper-cased. -/
theorem C5_end_to_end :
    write_outputs
      (extract_barcodes ["ITS".data] [("genomeA.fa".data, genomeLines)]
        [(("ITS".data, "genomeA.fa".data), [hitRow1, hitRow2])] 10) []
    = [("ITS.fasta".data,
        '>' :: "genomeA".data ++ '\n' :: pyUpper ((chr1seq.drop 90).take 220) ++ ['\n'])] := by
  decide

theorem updateKey_keys {α β : Type} [DecidableEq α] (f : β → β) (l : List (α × β)) (k : α) :
    (updateKey f l k).map Prod.fst = l.map Prod.fst := by
  induction l with
  | nil => rfl
  | cons kv rest ih =>
    simp only [updateKey]
    split_ifs with h
    · simp [h]
    · simp [ih]

theorem extractStep_keys (genomes : List (PyStr × List PyStr)) (flank : Int)
    (acc : List (PyStr × List (PyStr × PyStr))) (e : (PyStr × PyStr) × List PyStr) :
    (extractStep genomes flank acc e).map Prod.fst = acc.map Prod.fst := by
  unfold extractStep
  repeat' split
  all_goals first | rfl | (exact updateKey_keys _ _ _)

theorem extract_foldl_keys (genomes : List (PyStr × List PyStr)) (flank : Int)
    (bm : List ((PyStr × PyStr) × List PyStr)) :
    ∀ acc, ((bm.foldl (extractStep genomes flank) acc).map Prod.fst) = acc.map Prod.fst := by
  induction bm with
  | nil => intro acc; rfl
  | cons e rest ih =>
    intro acc
    simp only [List.foldl_cons]
    rw [ih, extractStep_keys]

theorem extract_barcodes_keys (labels : List PyStr) (genomes : List (PyStr × List PyStr))
    (bm : List ((PyStr × PyStr) × List PyStr)) (flank : Int) :
    (extract_barcodes labels genomes bm flank).map Prod.fst = firstOccur labels := by
  unfold extract_barcodes
  rw [extract_foldl_keys, List.map_map]
  exact List.map_id _

theorem dedup_foldl {α : Type} [DecidableEq α] (l : List α) :
    ∀ st : List α × List α, (∀ y, y ∈ st.1 ↔ y ∈ st.2) → st.1.Nodup →
      ((∀ y, y ∈ (l.foldl dedupStep st).1 ↔ y ∈ (l.foldl dedupStep st).2)
        ∧ (∀ x, x ∈ (l.foldl dedupStep st).1 ↔ x ∈ st.1 ∨ x ∈ l)
        ∧ (l.foldl dedupStep st).1.Nodup) := by
  induction l with
  | nil =>
    intro st h hn
    refine ⟨h, fun x => by simp, hn⟩
  | cons a t ih =>
    intro st h hn
    simp only [List.foldl_cons]
    by_cases ha : a ∈ st.2
    · have hstep : dedupStep st a = st := by simp [dedupStep, ha]
      rw [hstep]
      obtain ⟨i1, i2, i3⟩ := ih st h hn
      refine ⟨i1, fun x => ?_, i3⟩
      rw [i2 x]
      have ha1 : a ∈ st.1 := (h a).mpr ha
      constructor
      · rintro (hx | hx)
        · exact Or.inl hx
        · exact Or.inr (List.mem_cons_of_mem a hx)
      · rintro (hx | hx)
        · exact Or.inl hx
        · rcases List.mem_cons.mp hx with rfl | hx
          · exact Or.inl ha1
          · exact Or.inr hx
    · have hstep : dedupStep st a = (st.1 ++ [a], a :: st.2) := by simp [dedupStep, ha]
      rw [hstep]
      have h' : ∀ y, y ∈ st.1 ++ [a] ↔ y ∈ a :: st.2 := by
        intro y
        simp only [List.mem_append, List.mem_singleton, List.mem_cons]
        rw [h y]
        tauto
      have hn' : (st.1 ++ [a]).Nodup := by
        rw [List.nodup_append]
        refine ⟨hn, List.nodup_singleton a, ?_⟩
        intro x hx hxa
        rcases List.mem_singleton.mp hxa with rfl
        exact ha ((h x).mp hx)
      obtain ⟨i1, i2, i3⟩ := ih (st.1 ++ [a], a :: st.2) h' hn'
      refine ⟨i1, fun x => ?_, i3⟩
      rw [i2 x]
      simp only [List.mem_append, List.mem_singleton, List.mem_cons]
      tauto

theorem mem_firstOccur {α : Type} [DecidableEq α] (l : List α) (x : α) :
    x ∈ firstOccur l ↔ x ∈ l := by
  unfold firstOccur
  rw [(dedup_foldl l ([], []) (by simp) List.nodup_nil).2.1 x]
  simp

theorem nodup_firstOccur {α : Type} [DecidableEq α] (l : List α) : (firstOccur l).Nodup :=
  (dedup_foldl l ([], []) (by simp) List.nodup_nil).2.2

theorem lookupA_isSome_iff {α β : Type} [DecidableEq α] (l : List (α × β)) (k : α) :
    (lookupA l k).isSome ↔ k ∈ l.map Prod.fst := by
  induction l with
  | nil => simp [lookupA]
  | cons kv rest ih =>
    simp only [lookupA, List.map_cons, List.mem_cons]
    split_ifs with h
    · simp [h]
    · rw [ih]
      constructor
      · exact Or.inr
      · rintro (rfl | hx)
        · exact absurd rfl h
        · exact hx

theorem lookupA_mem {α β : Type} [DecidableEq α] (l : List (α × β)) (k : α) (v : β)
    (h : lookupA l k = some v) : (k, v) ∈ l := by
  induction l with
  | nil => simp [lookupA] at h
  | cons kv rest ih =>
    simp only [lookupA] at h
    split_ifs at h with hk
    · injection h with h2
      subst h2
      subst hk
      exact List.mem_cons_self _ _
    · exact List.mem_cons_of_mem _ (ih h)

theorem outBody_all_empty (items : List (PyStr × PyStr)) (h : ∀ it ∈ items, it.2 = []) :
    outBody items = [] := by
  unfold outBody
  induction items with
  | nil => rfl
  | cons it rest ih =>
    simp only [List.foldl_cons]
    rw [if_pos (h it (List.mem_cons_self _ _))]
    exact ih fun x hx => h x (List.mem_cons_of_mem _ hx)

/-- C7: the writer creates every label's output file even when no pair
qualified: the produced file names are exactly the (first-occurrence) labels
dressed as `{pfx_}{label}.fasta`, every command-line label has an entry in
the extraction dictionary, and a label all of whose fragments are empty
yields its file with empty body (zero FASTA records). -/
theorem C7_empty_label_file : ∀ (labels : List PyStr) (genomes : List (PyStr × List PyStr))
    (blast_map : List ((PyStr × PyStr) × List PyStr)) (flank : Int) (pfx : PyStr),
    ((write_outputs (extract_barcodes labels genomes blast_map flank) pfx).map Prod.fst
      = (firstOccur labels).map (outName pfx))
    ∧ (∀ lb, lb ∈ labels →
        ∃ items, lookupA (extract_barcodes labels genomes blast_map flank) lb = some items)
    ∧ (∀ lb items, lookupA (extract_barcodes labels genomes blast_map flank) lb = some items →
        (∀ it ∈ items, it.2 = []) →
        (outName pfx lb, [])
          ∈ write_outputs (extract_barcodes labels genomes blast_map flank) pfx) := by
  intro labels genomes blast_map flank pfx
  refine ⟨?_, ?_, ?_⟩
  · unfold write_outputs
    rw [List.map_map, show ((fun kv : PyStr × PyStr => kv.1)
        ∘ fun kv : PyStr × List (PyStr × PyStr) => (outName pfx kv.1, outBody kv.2))
      = (outName pfx) ∘ (fun kv => kv.1) from rfl]
    rw [← List.map_map, extract_barcodes_keys]
  · intro lb hlb
    have hk : lb ∈ (extract_barcodes labels genomes blast_map flank).map Prod.fst := by
      rw [extract_barcodes_keys]
      exact (mem_firstOccur labels lb).mpr hlb
    have := (lookupA_isSome_iff (extract_barcodes labels genomes blast_map flank) lb).mpr hk
    exact Option.isSome_iff_exists.mp this
  · intro lb items hl hempty
    have hmem := lookupA_mem _ _ _ hl
    have : (outName pfx lb, outBody items)
        ∈ write_outputs (extract_barcodes labels genomes blast_map flank) pfx :=
      List.mem_map.mpr ⟨(lb, items), hmem, rfl⟩
    rwa [outBody_all_empty items hempty] at this

/-- Witness for C7 with one label, no genomes and no hit files. -/
theorem C7_empty_label_file_witness :
    (∃ items, lookupA (extract_barcodes ["A".data] [] [] 0) "A".data = some items)
    ∧ (outName [] "A".data, []) ∈ write_outputs (extract_barcodes ["A".data] [] [] 0) [] := by
  refine ⟨(C7_empty_label_file ["A".data] [] [] 0 []).2.1 "A".data (by decide), ?_⟩
  exact (C7_empty_label_file ["A".data] [] [] 0 []).2.2 "A".data [] (by decide) (by decide)

theorem lookupA_setKey {α β : Type} [DecidableEq α] (l : List (α × β)) (k k' : α) (v : β) :
    lookupA (setKey l k v) k' = if k = k' then some v else lookupA l k' := by
  induction l with
  | nil => simp [setKey, lookupA]
  | cons kv rest ih =>
    by_cases h : kv.1 = k
    · by_cases h2 : k = k' <;> simp [setKey, lookupA, h, h2]
    · by_cases h2 : kv.1 = k'
      · by_cases h3 : k = k'
        · exact absurd (h2.trans h3.symm) h
        · have h4 : ¬ k' = k := fun e => h3 e.symm
          simp [setKey, lookupA, h, h2, h3, h4]
      · by_cases h3 : k = k'
        · subst h3
          simp [setKey, lookupA, h, h2, ih]
        · simp [setKey, lookupA, h, h2, h3, ih]

theorem lookupA_fold_setKey {α β : Type} [DecidableEq α] (f : α → β) (entries : List (α × β))
    (hf : ∀ e ∈ entries, e.2 = f e.1) :
    ∀ (init : List (α × β)) (k : α),
      lookupA (entries.foldl (fun d e => setKey d e.1 e.2) init) k
        = if k ∈ entries.map Prod.fst then some (f k) else lookupA init k := by
  induction entries with
  | nil => intro init k; simp
  | cons e rest ih =>
    intro init k
    simp only [List.foldl_cons, List.map_cons, List.mem_cons]
    rw [ih (fun x hx => hf x (List.mem_cons_of_mem _ hx))]
    by_cases hk : k ∈ rest.map Prod.fst
    · rw [if_pos hk, if_pos (Or.inr hk)]
    · rw [if_neg hk, lookupA_setKey]
      by_cases he : e.1 = k
      · rw [if_pos he, if_pos (Or.inl he.symm)]
        rw [hf e (List.mem_cons_self _ _), he]
      · rw [if_neg he, if_neg]
        rintro (h1 | h2)
        · exact he h1.symm
        · exact hk h2

theorem run_blastn_eq (label2rep : List (PyStr × PyStr)) (genomes : List PyStr) (tmpdir : PyStr) :
    run_blastn label2rep genomes tmpdir
      = ((label2rep.map fun lp => genomes.map fun g =>
            ((lp.1, baseName g), blastOutPath tmpdir lp.1 (baseName g))).flatten.foldl
          (fun d e => setKey d e.1 e.2) []) := by
  unfold run_blastn
  rw [List.foldl_flatten, List.foldl_map]
  congr 1
  funext acc lp
  rw [List.foldl_map]

/-- C8 (amended): after the search stage, every `(label, genome)` pair of the
cross product has its entry in the result map, keyed by the label and the
genome's basename, holding the pair's output path
`{tmpdir}/temp_blastn/{label}_{basename}.blastn.tsv`; two pairs get distinct
files whenever their `{label}_{basename}` strings differ. -/
theorem C8_cross_product (label2rep : List (PyStr × PyStr)) (genomes : List PyStr)
    (tmpdir : PyStr) :
    (∀ lp ∈ label2rep, ∀ g ∈ genomes,
      lookupA (run_blastn label2rep genomes tmpdir) (lp.1, baseName g)
        = some (blastOutPath tmpdir lp.1 (baseName g)))
    ∧ (∀ l₁ g₁ l₂ g₂ : PyStr,
        l₁ ++ "_".data ++ g₁ ≠ l₂ ++ "_".data ++ g₂ →
        blastOutPath tmpdir l₁ g₁ ≠ blastOutPath tmpdir l₂ g₂) := by
  constructor
  · intro lp hlp g hg
    rw [run_blastn_eq]
    have hf : ∀ e ∈ (label2rep.map fun lp' => genomes.map fun g' =>
        ((lp'.1, baseName g'), blastOutPath tmpdir lp'.1 (baseName g'))).flatten,
        e.2 = (fun k : PyStr × PyStr => blastOutPath tmpdir k.1 k.2) e.1 := by
      intro e he
      simp only [List.mem_flatten, List.mem_map] at he
      obtain ⟨l', ⟨lp', _, rfl⟩, he2⟩ := he
      obtain ⟨g', _, rfl⟩ := List.mem_map.mp he2
      rfl
    rw [lookupA_fold_setKey (fun k : PyStr × PyStr => blastOutPath tmpdir k.1 k.2) _ hf]
    have hmem : (lp.1, baseName g) ∈ ((label2rep.map fun lp' => genomes.map fun g' =>
        ((lp'.1, baseName g'), blastOutPath tmpdir lp'.1 (baseName g'))).flatten).map Prod.fst := by
      refine List.mem_map.mpr
        ⟨((lp.1, baseName g), blastOutPath tmpdir lp.1 (baseName g)), ?_, rfl⟩
      refine List.mem_flatten.mpr
        ⟨genomes.map fun g' => ((lp.1, baseName g'), blastOutPath tmpdir lp.1 (baseName g')),
          ?_, ?_⟩
      · exact List.mem_map.mpr ⟨lp, hlp, rfl⟩
      · exact List.mem_map.mpr ⟨g, hg, rfl⟩
    rw [if_pos hmem]
  · intro l₁ g₁ l₂ g₂ hne heq
    apply hne
    simp only [blastOutPath, List.append_assoc] at heq
    have h1 := List.append_cancel_left heq
    have h2 := List.append_cancel_left h1
    have h3 : (l₁ ++ "_".data ++ g₁) ++ ".blastn.tsv".data
        = (l₂ ++ "_".data ++ g₂) ++ ".blastn.tsv".data := by
      simpa [List.append_assoc] using h2
    exact List.append_cancel_right h3

/-- Counterexample to C8 as stated: the pairs `(a, b_c)` and `(a_b, c)` are
distinct, yet their hit files are one and the same path, because the file
name only concatenates label and basename with an underscore. -/
theorem C8_counterexample :
    lookupA (run_blastn [("a".data, []), ("a_b".data, [])] ["b_c".data, "c".data] "T".data)
        ("a".data, "b_c".data)
      = some "T/temp_blastn/a_b_c.blastn.tsv".data
    ∧ lookupA (run_blastn [("a".data, []), ("a_b".data, [])] ["b_c".data, "c".data] "T".data)
        ("a_b".data, "c".data)
      = some "T/temp_blastn/a_b_c.blastn.tsv".data
    ∧ (("a".data, "b_c".data) : PyStr × PyStr) ≠ ("a_b".data, "c".data) := by
  refine ⟨by decide, by decide, by decide⟩

/-- Witness for C8's amended statement on a two-label, two-genome instance. -/
theorem C8_cross_product_witness :
    lookupA (run_blastn [("L1".data, "r1".data), ("L2".data, "r2".data)]
        ["/x/g1.fa".data, "/x/g2.fa".data] "T".data) ("L2".data, "g1.fa".data)
      = some (blastOutPath "T".data "L2".data "g1.fa".data) := by
  have h := (C8_cross_product [("L1".data, "r1".data), ("L2".data, "r2".data)]
    ["/x/g1.fa".data, "/x/g2.fa".data] "T".data).1
    ("L2".data, "r2".data) (by decide) "/x/g1.fa".data (by decide)
  have hb : baseName "/x/g1.fa".data = "g1.fa".data := by decide
  rw [hb] at h
  exact h

theorem lookupA_updateKey {α β : Type} [DecidableEq α] (f : β → β) (l : List (α × β)) (k k' : α) :
    lookupA (updateKey f l k) k'
      = if k = k' then (lookupA l k').map f else lookupA l k' := by
  induction l with
  | nil => simp [updateKey, lookupA]
  | cons kv rest ih =>
    by_cases h : kv.1 = k
    · by_cases h2 : k = k' <;> simp [updateKey, lookupA, h, h2]
    · by_cases h2 : kv.1 = k'
      · by_cases h3 : k = k'
        · exact absurd (h2.trans h3.symm) h
        · have h4 : ¬ k' = k := fun e => h3 e.symm
          simp [updateKey, lookupA, h, h2, h3, h4]
      · by_cases h3 : k = k'
        · subst h3
          simp [updateKey, lookupA, h, h2, ih]
        · simp [updateKey, lookupA, h, h2, h3, ih]

theorem lookupA_append {α β : Type} [DecidableEq α] (l₁ l₂ : List (α × β)) (k : α) :
    lookupA (l₁ ++ l₂) k
      = match lookupA l₁ k with
        | some v => some v
        | none => lookupA l₂ k := by
  induction l₁ with
  | nil => simp [lookupA]
  | cons kv rest ih =>
    by_cases h : kv.1 = k <;> simp [lookupA, h, ih]

theorem lookupA_map_value {α β γ : Type} [DecidableEq α] (f : β → γ) (l : List (α × β)) (k : α) :
    lookupA (l.map fun kv => (kv.1, f kv.2)) k = (lookupA l k).map f := by
  induction l with
  | nil => simp [lookupA]
  | cons kv rest ih =>
    by_cases h : kv.1 = k <;> simp [lookupA, h, ih]

theorem mem_setKey_keys {α β : Type} [DecidableEq α] (l : List (α × β)) (k : α) (v : β) (y : α) :
    y ∈ (setKey l k v).map Prod.fst ↔ y = k ∨ y ∈ l.map Prod.fst := by
  induction l with
  | nil => simp [setKey]
  | cons kv rest ih =>
    by_cases h : kv.1 = k
    · simp [setKey, h]
    · simp only [setKey, if_neg h, List.map_cons, List.mem_cons, ih]
      tauto

theorem dupsAgainst_congr {α : Type} [DecidableEq α] (ids : List α) :
    ∀ s₁ s₂ : List α, (∀ y, y ∈ s₁ ↔ y ∈ s₂) → dupsAgainst s₁ ids = dupsAgainst s₂ ids := by
  induction ids with
  | nil => intro s₁ s₂ h; rfl
  | cons a rest ih =>
    intro s₁ s₂ h
    simp only [dupsAgainst]
    by_cases ha : a ∈ s₁
    · rw [if_pos ha, if_pos ((h a).mp ha), ih s₁ s₂ h]
    · rw [if_neg ha, if_neg (fun e => ha ((h a).mpr e))]
      refine ih _ _ fun y => ?_
      simp only [List.mem_cons]
      rw [h y]

theorem mem_dupsAgainst {α : Type} [DecidableEq α] [BEq α] [LawfulBEq α] (ids : List α) :
    ∀ (seen : List α) (x : α),
      x ∈ dupsAgainst seen ids ↔ (x ∈ seen ∧ x ∈ ids) ∨ 2 ≤ ids.count x := by
  induction ids with
  | nil => intro seen x; simp [dupsAgainst]
  | cons a rest ih =>
    intro seen x
    have hcnt : (a :: rest).count x = rest.count x + if a = x then 1 else 0 := by
      simp [List.count_cons]
    have hmemc : x ∈ rest ↔ 1 ≤ rest.count x :=
      ⟨fun h => List.count_pos_iff.mpr h, fun h => List.count_pos_iff.mp h⟩
    simp only [dupsAgainst]
    by_cases ha : a ∈ seen
    · rw [if_pos ha]
      simp only [List.mem_cons, ih]
      by_cases hx : x = a
      · subst hx
        exact iff_of_true (Or.inl rfl) (Or.inl ⟨ha, Or.inl rfl⟩)
      · rw [hcnt, if_neg (fun e => hx e.symm), Nat.add_zero]
        simp [hx]
    · rw [if_neg ha, ih, hcnt]
      by_cases hx : x = a
      · subst hx
        rw [if_pos rfl]
        constructor
        · rintro (⟨_, hm⟩ | hc)
          · right
            have := hmemc.mp hm
            omega
          · right
            omega
        · rintro (⟨hf, _⟩ | hc)
          · exact absurd hf ha
          · left
            exact ⟨List.mem_cons_self _ _, hmemc.mpr (by omega)⟩
      · rw [if_neg (fun e => hx e.symm), Nat.add_zero]
        simp only [List.mem_cons]
        constructor
        · rintro (⟨hs, hm⟩ | hc)
          · rcases hs with hs | hs
            · exact absurd hs hx
            · exact Or.inl ⟨hs, Or.inr hm⟩
          · exact Or.inr hc
        · rintro (⟨hs, hm⟩ | hc)
          · rcases hm with hm | hm
            · exact absurd hm hx
            · exact Or.inl ⟨Or.inr hs, hm⟩
          · exact Or.inr hc
theorem rgLoop_lookup (lines : List PyStr) :
    ∀ (current : Option PyStr) (seqs : List (PyStr × List PyStr)) (warns : List PyStr)
      (id : PyStr),
      lookupA (rgLoop lines current seqs warns).1 id
        = match lookupA ((fastaBlocksChunks lines).reverse) id with
          | some chunks => some chunks
          | none =>
            if current = some id then (lookupA seqs id).map (· ++ leadChunks lines)
            else lookupA seqs id := by
  induction lines with
  | nil =>
    intro current seqs warns id
    simp only [rgLoop, fastaBlocksChunks, leadChunks, List.reverse_nil, lookupA]
    split_ifs with h
    · cases lookupA seqs id <;> simp
    · rfl
  | cons line rest ih =>
    intro current seqs warns id
    by_cases hl : line = []
    · have hstep : rgLoop (line :: rest) current seqs warns = rgLoop rest current seqs warns := by
        simp [rgLoop, hl]
      have hb : fastaBlocksChunks (line :: rest) = fastaBlocksChunks rest := by
        simp [fastaBlocksChunks, hl]
      have hc : leadChunks (line :: rest) = leadChunks rest := by
        simp [leadChunks, hl]
      rw [hstep, hb, hc, ih]
    · by_cases hh : line.head? = some '>'
      · have hstep : rgLoop (line :: rest) current seqs warns
            = rgLoop rest (some (headerId line)) (setKey seqs (headerId line) [])
                (if (lookupA seqs (headerId line)).isSome
                 then warns ++ [headerId line] else warns) := by
          simp [rgLoop, hl, hh]
        have hb : fastaBlocksChunks (line :: rest)
            = (headerId line, leadChunks rest) :: fastaBlocksChunks rest := by
          simp [fastaBlocksChunks, hl, hh]
        have hc : leadChunks (line :: rest) = [] := by
          simp [leadChunks, hl, hh]
        rw [hstep, ih, hb, hc, List.reverse_cons, lookupA_append]
        cases hbk : lookupA ((fastaBlocksChunks rest).reverse) id with
        | some chunks => rfl
        | none =>
          simp only [lookupA]
          by_cases hid : headerId line = id
          · rw [if_pos hid, if_pos (by rw [hid]), lookupA_setKey, if_pos hid]
            simp
          · rw [if_neg hid, if_neg (fun e => hid (Option.some.inj e)), lookupA_setKey,
              if_neg hid]
            split_ifs with h
            · cases lookupA seqs id <;> simp
            · rfl
      · have hb : fastaBlocksChunks (line :: rest) = fastaBlocksChunks rest := by
          simp [fastaBlocksChunks, hl, hh]
        have hc : leadChunks (line :: rest) = pyStrip line :: leadChunks rest := by
          simp [leadChunks, hl, hh]
        cases current with
        | none =>
          have hstep : rgLoop (line :: rest) none seqs warns = rgLoop rest none seqs warns := by
            simp [rgLoop, hl, hh]
          rw [hstep, ih, hb]
          cases hbk : lookupA ((fastaBlocksChunks rest).reverse) id with
          | some chunks => rfl
          | none => simp
        | some c =>
          have hstep : rgLoop (line :: rest) (some c) seqs warns
              = rgLoop rest (some c) (updateKey (fun v => v ++ [pyStrip line]) seqs c)
                  warns := by
            simp [rgLoop, hl, hh]
          rw [hstep, ih, hb, hc]
          cases hbk : lookupA ((fastaBlocksChunks rest).reverse) id with
          | some chunks => rfl
          | none =>
            by_cases hcid : c = id
            · subst hcid
              rw [if_pos rfl, if_pos rfl, lookupA_updateKey, if_pos rfl]
              cases lookupA seqs c <;> simp
            · rw [if_neg (fun e => hcid (Option.some.inj e)),
                if_neg (fun e => hcid (Option.some.inj e)), lookupA_updateKey, if_neg hcid]

theorem rgLoop_warns (lines : List PyStr) :
    ∀ (current : Option PyStr) (seqs : List (PyStr × List PyStr)) (warns : List PyStr),
      (rgLoop lines current seqs warns).2
        = warns ++ dupsAgainst (seqs.map Prod.fst) ((fastaBlocksChunks lines).map Prod.fst) := by
  induction lines with
  | nil => intro current seqs warns; simp [rgLoop, fastaBlocksChunks, dupsAgainst]
  | cons line rest ih =>
    intro current seqs warns
    by_cases hl : line = []
    · have hstep : rgLoop (line :: rest) current seqs warns = rgLoop rest current seqs warns := by
        simp [rgLoop, hl]
      have hb : fastaBlocksChunks (line :: rest) = fastaBlocksChunks rest := by
        simp [fastaBlocksChunks, hl]
      rw [hstep, hb, ih]
    · by_cases hh : line.head? = some '>'
      · have hstep : rgLoop (line :: rest) current seqs warns
            = rgLoop rest (some (headerId line)) (setKey seqs (headerId line) [])
                (if (lookupA seqs (headerId line)).isSome
                 then warns ++ [headerId line] else warns) := by
          simp [rgLoop, hl, hh]
        have hb : fastaBlocksChunks (line :: rest)
            = (headerId line, leadChunks rest) :: fastaBlocksChunks rest := by
          simp [fastaBlocksChunks, hl, hh]
        rw [hstep, ih, hb, List.map_cons]
        by_cases hs : (lookupA seqs (headerId line)).isSome
        · rw [if_pos hs]
          have hmem : headerId line ∈ seqs.map Prod.fst := (lookupA_isSome_iff _ _).mp hs
          have hcong : dupsAgainst ((setKey seqs (headerId line) []).map Prod.fst)
                ((fastaBlocksChunks rest).map Prod.fst)
              = dupsAgainst (seqs.map Prod.fst) ((fastaBlocksChunks rest).map Prod.fst) := by
            refine dupsAgainst_congr _ _ _ fun y => ?_
            rw [mem_setKey_keys]
            constructor
            · rintro (rfl | hy)
              · exact hmem
              · exact hy
            · exact Or.inr
          rw [hcong,
            show dupsAgainst (seqs.map Prod.fst)
                (headerId line :: (fastaBlocksChunks rest).map Prod.fst)
              = headerId line
                :: dupsAgainst (seqs.map Prod.fst) ((fastaBlocksChunks rest).map Prod.fst) from
              by simp [dupsAgainst, hmem]]
          simp
        · rw [if_neg hs]
          have hmem : ¬ headerId line ∈ seqs.map Prod.fst :=
            fun m => hs ((lookupA_isSome_iff _ _).mpr m)
          have hcong : dupsAgainst ((setKey seqs (headerId line) []).map Prod.fst)
                ((fastaBlocksChunks rest).map Prod.fst)
              = dupsAgainst (headerId line :: seqs.map Prod.fst)
                  ((fastaBlocksChunks rest).map Prod.fst) := by
            refine dupsAgainst_congr _ _ _ fun y => ?_
            rw [mem_setKey_keys, List.mem_cons]
          rw [hcong,
            show dupsAgainst (seqs.map Prod.fst)
                (headerId line :: (fastaBlocksChunks rest).map Prod.fst)
              = dupsAgainst (headerId line :: seqs.map Prod.fst)
                  ((fastaBlocksChunks rest).map Prod.fst) from
              by simp [dupsAgainst, hmem]]
      · have hb : fastaBlocksChunks (line :: rest) = fastaBlocksChunks rest := by
          simp [fastaBlocksChunks, hl, hh]
        cases current with
        | none =>
          have hstep : rgLoop (line :: rest) none seqs warns = rgLoop rest none seqs warns := by
            simp [rgLoop, hl, hh]
          rw [hstep, ih, hb]
        | some c =>
          have hstep : rgLoop (line :: rest) (some c) seqs warns
              = rgLoop rest (some c) (updateKey (fun v => v ++ [pyStrip line]) seqs c)
                  warns := by
            simp [rgLoop, hl, hh]
          rw [hstep, ih, hb, updateKey_keys]

/-- C9: each FASTA record's identifier is the first whitespace-delimited
token of its header line with the leading `>` removed (`fastaBlocks`), and
when an identifier occurs on more than one header line the reader warns on
standard error exactly for the repeated occurrences, continues non-fatally,
and the record read later completely overwrites the earlier one: looking an
id up in the resulting mapping is looking it up among the records in
reverse file order. -/
theorem C9_fasta_reader : ∀ lines : List PyStr,
    (∀ id, lookupA (read_genome_to_dict lines).1 id
        = lookupA ((fastaBlocks lines).reverse) id)
    ∧ (∀ id, id ∈ (read_genome_to_dict lines).2
        ↔ 2 ≤ ((fastaBlocks lines).map Prod.fst).count id) := by
  intro lines
  constructor
  · intro id
    unfold read_genome_to_dict
    rw [lookupA_map_value, rgLoop_lookup]
    unfold fastaBlocks
    rw [← List.map_reverse, lookupA_map_value]
    cases lookupA ((fastaBlocksChunks lines).reverse) id <;> simp [lookupA]
  · intro id
    unfold read_genome_to_dict
    rw [rgLoop_warns, List.nil_append, mem_dupsAgainst]
    simp only [fastaBlocks, List.map_map, List.map_nil, List.not_mem_nil, false_and, false_or]
    rw [show (Prod.fst ∘ fun kv : PyStr × List PyStr => (kv.1, kv.2.flatten)) = Prod.fst from
      funext fun kv => rfl]
theorem foldO_normLine_eq (fs : FS) (lines : List String) :
    ∀ st : List String × List String,
      foldO (normLine fs) st lines
        = (mapO (fun line =>
            if fs.fexists (fs.resolve (pyStripS line))
            then some (fs.resolve (pyStripS line)) else none) lines).map
            fun ps => ps.foldl dedupStep st := by
  induction lines with
  | nil => intro st; rfl
  | cons l ls ih =>
    intro st
    simp only [foldO, mapO, normLine]
    cases he : fs.fexists (fs.resolve (pyStripS l))
    · simp [he]
    · simp only [he, if_pos, Option.some_bind, ih]
      cases mapO (fun line =>
          if fs.fexists (fs.resolve (pyStripS line))
          then some (fs.resolve (pyStripS line)) else none) ls <;>
        simp [List.foldl_cons]

theorem foldO_normItem_eq (fs : FS) (g_args : List String) :
    ∀ st : List String × List String,
      foldO (normItem fs) st g_args
        = (mapO (expandItem fs) g_args).map fun occs => occs.flatten.foldl dedupStep st := by
  induction g_args with
  | nil => intro st; rfl
  | cons a rest ih =>
    intro st
    simp only [foldO, mapO, normItem, expandItem]
    cases he : fs.fexists (fs.resolve a)
    · simp [he]
    · simp only [he, Bool.true_eq_false, not_false_eq_true, if_neg, if_false]
      by_cases hi : isListFile fs (fs.resolve a)
      · rw [if_pos hi, if_pos hi, foldO_normLine_eq]
        cases hm : mapO (fun line =>
            if fs.fexists (fs.resolve (pyStripS line))
            then some (fs.resolve (pyStripS line)) else none) (fs.flines (fs.resolve a))
        · simp
        · simp only [Option.map_some, Option.some_bind, ih]
          cases mapO (expandItem fs) rest <;> simp [List.foldl_append]
      · rw [if_neg hi, if_neg hi]
        simp only [Option.some_bind, ih]
        cases mapO (expandItem fs) rest <;> simp [List.foldl_cons]

/-- C6: the genome-set normalizer succeeds exactly when every referenced
path exists and the expanded stream of resolved paths is non-empty, and
then returns that stream deduplicated to first occurrences, which in
particular has no duplicates: a file named both directly and inside a list
file appears once, at the position of its first occurrence. -/
theorem C6_genome_normalizer : ∀ (fs : FS) (g_args : List String),
    (normalize_genome_list fs g_args
      = (resolvedOccurrences fs g_args).bind fun occ =>
          if (firstOccur occ).isEmpty then none else some (firstOccur occ))
    ∧ (∀ out, normalize_genome_list fs g_args = some out → out.Nodup) := by
  intro fs g_args
  have heq : normalize_genome_list fs g_args
      = (resolvedOccurrences fs g_args).bind fun occ =>
          if (firstOccur occ).isEmpty then none else some (firstOccur occ) := by
    unfold normalize_genome_list resolvedOccurrences
    rw [foldO_normItem_eq]
    cases mapO (expandItem fs) g_args <;> simp [firstOccur]
  refine ⟨heq, ?_⟩
  intro out hout
  rw [heq] at hout
  cases hocc : resolvedOccurrences fs g_args with
  | none => rw [hocc] at hout; simp at hout
  | some occ =>
    rw [hocc] at hout
    simp only [Option.some_bind] at hout
    split_ifs at hout with h
    injection hout with h3
    rw [← h3]
    exact nodup_firstOccur occ

/-- Witness for C6: a path given twice is kept once, and the output has no
duplicates. -/
theorem C6_genome_normalizer_witness :
    normalize_genome_list fsW ["a", "a"] = some ["a"] ∧ (["a"] : List String).Nodup := by
  have h1 : normalize_genome_list fsW ["a", "a"] = some ["a"] := by decide
  exact ⟨h1, (C6_genome_normalizer fsW ["a", "a"]).2 ["a"] h1⟩
